import Mathlib

/-!
Verification of the offline cache manager (`OfflineCacheManager` in the
repository's cache management script) against its natural-language
specification.

Shallow embedding conventions:
* JS strings and byte payloads are modelled as `String`; `Buffer.byteLength`
  is modelled as `String.length`.
* The JS `Map` backing `cacheIndex` is modelled as an association list
  `List (String × CacheMetadata)` with insertion-order semantics
  (`mapSet` replaces in place, `mapGet` finds the first match, `mapDelete`
  removes the entry), matching `Map.set` / `Map.get` / `Map.delete`.
* The filesystem cache directory is modelled as an association list from the
  cache key to the written file content `(CacheMetadata × String)`, matching
  the JSON cache file layout (a metadata header plus the encoded data).
* External library primitives (`crypto.createHash('md5')`,
  `zlib.gzipSync`/`gunzipSync` with base64 conversion, the `aes192`
  cipher/decipher pair, and `JSON.parse` for non-string values) are passed in
  as a `Prims` bundle of functions; a primitive returning `none` models the
  library call throwing, which the source catches.  Theorems about
  round-trips take the library round-trip laws as hypotheses.
* `Date.now()` is threaded through each operation as an explicit `now : Nat`
  argument (time does not advance within a single operation).
* A caller-supplied value (`key` or `data`) is a `JSData`: either a JS
  string (`JSData.str`), or a non-string value represented by its canonical
  `JSON.stringify` serialization (`JSData.obj`).
* `fs.writeFileSync` failure inside `set` is modelled by the `writeOk`
  flag of `set`; all other file I/O is modelled as succeeding, as the
  claims under verification assume.
-/

namespace OfflineCache

/-- External library primitives used by the cache manager.  `none` models a
thrown exception from the underlying library call. -/
structure Prims where
  md5 : String → String
  gzip : String → Option String
  gunzip : String → Option String
  aesEnc : String → Option String
  aesDec : String → Option String
  jparse : String → Option String

/-- A JS value at the cache boundary: either a string, or a non-string value
identified by its `JSON.stringify` serialization. -/
inductive JSData where
  | str (s : String)
  | obj (json : String)
deriving DecidableEq, Repr

/-- The recognized configuration options of `this.config` (the
`encryptionKey` is folded into the `aesEnc`/`aesDec` primitives, and
`cacheDir` is abstracted away by the file map). -/
structure Config where
  maxCacheSize : Nat
  maxCacheAge : Nat
  compressionEnabled : Bool
  encryptionEnabled : Bool
deriving DecidableEq, Repr

/-- The per-entry metadata object built by `set` and held in `cacheIndex`. -/
structure CacheMetadata where
  key : JSData
  cacheKey : String
  timestamp : Nat
  ttl : Nat
  expiresAt : Nat
  size : Nat
  isCompressed : Bool
  isEncrypted : Bool
  dataType : String
  version : String
deriving DecidableEq, Repr

/-- The `this.cacheStats` record. -/
structure Stats where
  totalSize : Nat
  totalFiles : Nat
  hits : Nat
  misses : Nat
  lastCleanup : Option Nat
deriving DecidableEq, Repr

/-- The full cache state: the in-memory index, the on-disk blob files, the
stats record, and the last persisted `cache-index.json` snapshot
(`none` when `saveCacheIndex` has never run). -/
structure CacheState where
  index : List (String × CacheMetadata)
  files : List (String × (CacheMetadata × String))
  stats : Stats
  persisted : Option (List (String × CacheMetadata) × Stats)
deriving DecidableEq, Repr

/-- `Map.get`: first entry with the given key. -/
def mapGet {α : Type} : List (String × α) → String → Option α
  | [], _ => none
  | (k0, v0) :: rest, k => if k0 = k then some v0 else mapGet rest k

/-- `Map.set`: replace in place if the key is present, else append. -/
def mapSet {α : Type} : List (String × α) → String → α → List (String × α)
  | [], k, v => [(k, v)]
  | (k0, v0) :: rest, k, v =>
    if k0 = k then (k, v) :: rest else (k0, v0) :: mapSet rest k v

/-- `Map.delete` / `fs.unlinkSync`: drop entries with the given key. -/
def mapDelete {α : Type} : List (String × α) → String → List (String × α)
  | [], _ => []
  | (k0, v0) :: rest, k =>
    if k0 = k then mapDelete rest k else (k0, v0) :: mapDelete rest k

/-- `generateCacheKey`: md5 of the string itself for string keys, md5 of the
JSON serialization for any other value. -/
def generateCacheKey (p : Prims) : JSData → String
  | .str s => p.md5 s
  | .obj j => p.md5 j

/-- `compressData`: gzip plus base64 when compression is enabled, falling
back to the input bytes when the library call throws. -/
def compressData (p : Prims) (cfg : Config) (data : String) : String :=
  if !cfg.compressionEnabled then data
  else
    match p.gzip data with
    | some z => z
    | none => data

/-- `decompressData`: reverses the gzip stage only when both the recorded
flag and the current configuration enable it; on a library failure it
returns the compressed input unchanged. -/
def decompressData (p : Prims) (cfg : Config) (compressedData : String)
    (isCompressed : Bool) : String :=
  if !isCompressed || !cfg.compressionEnabled then compressedData
  else
    match p.gunzip compressedData with
    | some r => r
    | none => compressedData

/-- `encryptData`: aes192 encryption when enabled, falling back to the input
bytes when the library call throws. -/
def encryptData (p : Prims) (cfg : Config) (data : String) : String :=
  if !cfg.encryptionEnabled then data
  else
    match p.aesEnc data with
    | some e => e
    | none => data

/-- `decryptData`: reverses the encryption stage only when both the recorded
flag and the current configuration enable it; on a library failure it
returns the encrypted input unchanged. -/
def decryptData (p : Prims) (cfg : Config) (encryptedData : String)
    (isEncrypted : Bool) : String :=
  if !isEncrypted || !cfg.encryptionEnabled then encryptedData
  else
    match p.aesDec encryptedData with
    | some d => d
    | none => encryptedData

/-- The encode side of the codec pipeline as composed inside `set`: compress,
then encrypt, with the actually-applied flags computed by comparing each
stage's output with its input. -/
def encode (p : Prims) (cfg : Config) (data : String) : String × Bool × Bool :=
  let compressed := compressData p cfg data
  let isCompressed := compressed != data
  let encrypted := encryptData p cfg compressed
  let isEncrypted := encrypted != compressed
  (encrypted, isCompressed, isEncrypted)

/-- The decode side of the codec pipeline as composed inside `get`: decrypt,
then decompress, driven by the recorded flags. -/
def decode (p : Prims) (cfg : Config) (data : String)
    (isCompressed isEncrypted : Bool) : String :=
  decompressData p cfg (decryptData p cfg data isEncrypted) isCompressed

/-- `updateCacheStats`: recompute `totalSize` and `totalFiles` from the
index. -/
def sumSizes (l : List (String × CacheMetadata)) : Nat :=
  (l.map (fun kv => kv.2.size)).sum

def updateCacheStats (index : List (String × CacheMetadata)) (s : Stats) :
    Stats :=
  { s with totalSize := sumSizes index, totalFiles := index.length }

/-- `saveCacheIndex`: persist the index and stats as the snapshot file. -/
def saveCacheIndex (st : CacheState) : CacheState :=
  { st with persisted := some (st.index, st.stats) }

/-- `let processedData = typeof data === 'string' ? data : JSON.stringify(data)`:
the serialized bytes handed to the codec pipeline. -/
def processedData : JSData → String
  | .str s => s
  | .obj j => j

/-- `const ttl = options.ttl || this.config.maxCacheAge` (JS `||`: a `0`
argument also falls back to the default). -/
def resolveTtl (cfg : Config) : Option Nat → Nat
  | some t => if t = 0 then cfg.maxCacheAge else t
  | none => cfg.maxCacheAge

/-- The encoded bytes written to the blob file by `set`. -/
def setEncoded (p : Prims) (cfg : Config) (data : JSData) : String :=
  encryptData p cfg (compressData p cfg (processedData data))

/-- The metadata object built by `set`. -/
def setMetadata (p : Prims) (cfg : Config) (now : Nat) (key data : JSData)
    (ttlOpt : Option Nat) : CacheMetadata :=
  let pd := processedData data
  let compressed := compressData p cfg pd
  let encrypted := encryptData p cfg compressed
  { key := key, cacheKey := generateCacheKey p key, timestamp := now,
    ttl := resolveTtl cfg ttlOpt, expiresAt := now + resolveTtl cfg ttlOpt,
    size := encrypted.length, isCompressed := compressed != pd,
    isEncrypted := encrypted != compressed,
    dataType := (match data with | .str _ => "string" | .obj _ => "object"),
    version := "1.0" }

/-- `set(key, data, options)`: encode, write the blob (`writeOk` models
whether `fs.writeFileSync` succeeds; on failure the catch block returns
`false` with the state untouched — everything before the write is pure),
then update the index and stats and persist. -/
def set (p : Prims) (cfg : Config) (now : Nat) (key data : JSData)
    (ttlOpt : Option Nat) (writeOk : Bool) (st : CacheState) :
    Bool × CacheState :=
  if !writeOk then (false, st)
  else
    let cacheKey := generateCacheKey p key
    let metadata := setMetadata p cfg now key data ttlOpt
    let st1 := { st with
                 files := mapSet st.files cacheKey (metadata, setEncoded p cfg data)
                 index := mapSet st.index cacheKey metadata }
    let st2 := { st1 with stats := updateCacheStats st1.index
                            { st1.stats with totalFiles := st1.index.length } }
    (true, saveCacheIndex st2)

def bumpMiss (st : CacheState) : CacheState :=
  { st with stats := { st.stats with misses := st.stats.misses + 1 } }

def bumpHit (st : CacheState) : CacheState :=
  { st with stats := { st.stats with hits := st.stats.hits + 1 } }

/-- `delete(key)`: when the index has the entry, unlink the blob, remove the
index entry, recompute stats and persist; otherwise return `false`. -/
def delete (p : Prims) (cfg : Config) (key : JSData) (st : CacheState) :
    Bool × CacheState :=
  let cacheKey := generateCacheKey p key
  match mapGet st.index cacheKey with
  | none => (false, st)
  | some _ =>
    let st1 := { st with files := mapDelete st.files cacheKey,
                         index := mapDelete st.index cacheKey }
    let st2 := { st1 with stats := updateCacheStats st1.index st1.stats }
    (true, saveCacheIndex st2)

/-- `get(key)`: index lookup, lazy TTL expiry (via `delete`), consistency
self-heal when the blob file is missing, then decode and deserialize.  A
`JSON.parse` failure on a structured value is caught and counted as a
miss. -/
def get (p : Prims) (cfg : Config) (now : Nat) (key : JSData)
    (st : CacheState) : Option JSData × CacheState :=
  let cacheKey := generateCacheKey p key
  match mapGet st.index cacheKey with
  | none => (none, bumpMiss st)
  | some metadata =>
    if now > metadata.expiresAt then
      (none, bumpMiss (delete p cfg key st).2)
    else
      match mapGet st.files cacheKey with
      | none => (none, bumpMiss { st with index := mapDelete st.index cacheKey })
      | some fileContent =>
        let decrypted := decryptData p cfg fileContent.2 metadata.isEncrypted
        let decompressed := decompressData p cfg decrypted metadata.isCompressed
        if metadata.dataType = "string" then
          (some (JSData.str decompressed), bumpHit st)
        else
          match p.jparse decompressed with
          | some j => (some (JSData.obj j), bumpHit st)
          | none => (none, bumpMiss st)

/-- The hit condition of a `get` call: entry present, not expired, blob
present, and deserialization succeeds. -/
def getWouldHit (p : Prims) (cfg : Config) (now : Nat) (key : JSData)
    (st : CacheState) : Bool :=
  let cacheKey := generateCacheKey p key
  match mapGet st.index cacheKey with
  | none => false
  | some metadata =>
    if now > metadata.expiresAt then false
    else
      match mapGet st.files cacheKey with
      | none => false
      | some fileContent =>
        let decrypted := decryptData p cfg fileContent.2 metadata.isEncrypted
        let decompressed := decompressData p cfg decrypted metadata.isCompressed
        if metadata.dataType = "string" then true
        else (p.jparse decompressed).isSome

/-- `has(key)`: presence check with the same lazy expiry as `get`, without
reading the blob or touching the hit and miss counters. -/
def has (p : Prims) (cfg : Config) (now : Nat) (key : JSData)
    (st : CacheState) : Bool × CacheState :=
  match mapGet st.index (generateCacheKey p key) with
  | none => (false, st)
  | some metadata =>
    if now > metadata.expiresAt then (false, (delete p cfg key st).2)
    else (true, st)

/-- The loop body of `cleanupExpired`, walking a snapshot of the index
entries: each expired entry has its blob unlinked (the freed size is counted
only when the file existed) and its index entry removed. -/
def cleanupExpiredGo (now : Nat) :
    List (String × CacheMetadata) → CacheState → Nat → Nat →
    Nat × Nat × CacheState
  | [], st, cnt, sz => (cnt, sz, st)
  | (k, m) :: rest, st, cnt, sz =>
    if now > m.expiresAt then
      let hadFile := (mapGet st.files k).isSome
      let st1 := { st with files := mapDelete st.files k,
                           index := mapDelete st.index k }
      cleanupExpiredGo now rest st1 (cnt + 1)
        (if hadFile then sz + m.size else sz)
    else cleanupExpiredGo now rest st cnt sz

/-- `cleanupExpired()`: sweep all expired entries; when anything was removed,
recompute stats, persist, and then record `lastCleanup` (the source sets
`lastCleanup` after `saveCacheIndex`, so the persisted stats predate it). -/
def cleanupExpired (now : Nat) (st : CacheState) : (Nat × Nat) × CacheState :=
  let r := cleanupExpiredGo now st.index st 0 0
  if r.1 > 0 then
    let st2 := { r.2.2 with stats := updateCacheStats r.2.2.index r.2.2.stats }
    let st3 := saveCacheIndex st2
    ((r.1, r.2.1), { st3 with stats := { st3.stats with lastCleanup := some now } })
  else ((r.1, r.2.1), r.2.2)

/-- Comparator of the `cleanupOversized` sort: ascending `timestamp`. -/
def tsLE (a b : String × CacheMetadata) : Prop :=
  a.2.timestamp ≤ b.2.timestamp

instance : DecidableRel tsLE := fun a b => Nat.decLe a.2.timestamp b.2.timestamp

instance : IsTotal (String × CacheMetadata) tsLE :=
  ⟨fun a b => Nat.le_total a.2.timestamp b.2.timestamp⟩

instance : IsTrans (String × CacheMetadata) tsLE :=
  ⟨fun _ _ _ => Nat.le_trans⟩

/-- The loop body of `cleanupOversized`, walking the sorted entries: break as
soon as the recorded total minus the freed size fits the budget, otherwise
remove the entry (counting the freed size only when the file existed). -/
def cleanupOversizedGo (maxSize totalSize0 : Nat) :
    List (String × CacheMetadata) → CacheState → Nat → Nat →
    Nat × Nat × CacheState
  | [], st, cnt, sz => (cnt, sz, st)
  | (k, m) :: rest, st, cnt, sz =>
    if totalSize0 - sz ≤ maxSize then (cnt, sz, st)
    else
      let hadFile := (mapGet st.files k).isSome
      let st1 := { st with files := mapDelete st.files k,
                           index := mapDelete st.index k }
      cleanupOversizedGo maxSize totalSize0 rest st1 (cnt + 1)
        (if hadFile then sz + m.size else sz)

/-- `cleanupOversized()`: no-op when the recorded total fits the budget,
otherwise evict in ascending `timestamp` order (a stable sort, as JS
`Array.prototype.sort`) until it fits, then recompute stats and persist when
anything was removed. -/
def cleanupOversized (cfg : Config) (st : CacheState) :
    (Nat × Nat) × CacheState :=
  if st.stats.totalSize ≤ cfg.maxCacheSize then ((0, 0), st)
  else
    let sorted := List.insertionSort tsLE st.index
    let r := cleanupOversizedGo cfg.maxCacheSize st.stats.totalSize sorted st 0 0
    if r.1 > 0 then
      ((r.1, r.2.1),
        saveCacheIndex { r.2.2 with stats := updateCacheStats r.2.2.index r.2.2.stats })
    else ((r.1, r.2.1), r.2.2)

/-- `cleanup()`: the expiry sweep followed by the size-bound sweep, with the
combined counts. -/
def cleanup (cfg : Config) (now : Nat) (st : CacheState) :
    (Nat × Nat) × CacheState :=
  let r1 := cleanupExpired now st
  let r2 := cleanupOversized cfg r1.2
  ((r1.1.1 + r2.1.1, r1.1.2 + r2.1.2), r2.2)

/-- The unlink loop of `clear`, over the index entries: each existing blob is
unlinked and counted. -/
def clearGo : List (String × CacheMetadata) →
    List (String × (CacheMetadata × String)) → Nat →
    List (String × (CacheMetadata × String)) × Nat
  | [], files, cnt => (files, cnt)
  | (k, _) :: rest, files, cnt =>
    if (mapGet files k).isSome then clearGo rest (mapDelete files k) (cnt + 1)
    else clearGo rest files cnt

/-- `clear()`: unlink every indexed blob, reset the index and the whole stats
record (including `hits` and `misses`), persist, and return the unlink
count. -/
def clear (now : Nat) (st : CacheState) : Nat × CacheState :=
  let r := clearGo st.index st.files 0
  let st1 : CacheState :=
    { st with files := r.1
              index := []
              stats := { totalSize := 0, totalFiles := 0, hits := 0,
                         misses := 0, lastCleanup := some now } }
  (r.2, saveCacheIndex st1)

/-- `getStats()`: a read-only snapshot (the derived percentage strings are
not modelled; no state is mutated). -/
def getStats (st : CacheState) : Stats :=
  st.stats

/-- One public operation of the cache manager, with its `Date.now()` value
where the source reads the clock. -/
inductive CacheOp where
  | setOp (now : Nat) (key data : JSData) (ttl : Option Nat)
  | getOp (now : Nat) (key : JSData)
  | hasOp (now : Nat) (key : JSData)
  | delOp (key : JSData)
  | cleanupExpiredOp (now : Nat)
  | cleanupOversizedOp
  | cleanupOp (now : Nat)
  | clearOp (now : Nat)
  | getStatsOp

/-- Run one public operation (file I/O succeeding), keeping the state. -/
def runOp (p : Prims) (cfg : Config) : CacheOp → CacheState → CacheState
  | .setOp now key data ttl, st => (set p cfg now key data ttl true st).2
  | .getOp now key, st => (get p cfg now key st).2
  | .hasOp now key, st => (has p cfg now key st).2
  | .delOp key, st => (delete p cfg key st).2
  | .cleanupExpiredOp now, st => (cleanupExpired now st).2
  | .cleanupOversizedOp, st => (cleanupOversized cfg st).2
  | .cleanupOp now, st => (cleanup cfg now st).2
  | .clearOp now, st => (clear now st).2
  | .getStatsOp, st => st

def runOps (p : Prims) (cfg : Config) (ops : List CacheOp) (st : CacheState) :
    CacheState :=
  ops.foldl (fun s op => runOp p cfg op s) st

/-- The state of a freshly initialized cache with no snapshot on disk. -/
def initState : CacheState :=
  { index := [], files := [],
    stats := { totalSize := 0, totalFiles := 0, hits := 0, misses := 0,
               lastCleanup := none },
    persisted := none }

/-- A sequence of `get` calls, collecting the returned values. -/
def runGets (p : Prims) (cfg : Config) :
    List (Nat × JSData) → CacheState → List (Option JSData) × CacheState
  | [], st => ([], st)
  | (now, key) :: rest, st =>
    let r := get p cfg now key st
    let rs := runGets p cfg rest r.2
    (r.1 :: rs.1, rs.2)

/-- Number of hit outcomes (a returned value) in a list of `get` results. -/
def countHits : List (Option JSData) → Nat
  | [] => 0
  | o :: rest => (if o.isSome then 1 else 0) + countHits rest

/-- Number of miss outcomes (an absent result) in a list of `get` results. -/
def countMisses : List (Option JSData) → Nat
  | [] => 0
  | o :: rest => (if o.isSome then 0 else 1) + countMisses rest

/-- The index/storage consistency invariant: a key is in the index exactly
when its blob file exists, and neither side holds duplicate keys. -/
def ConsistencyInv (st : CacheState) : Prop :=
  (∀ k, (mapGet st.index k).isSome ↔ (mapGet st.files k).isSome)
  ∧ (st.index.map Prod.fst).Nodup ∧ (st.files.map Prod.fst).Nodup

/-- The persisted snapshot reflects the in-memory index (vacuously, an index
that was never persisted is still empty). -/
def persistedMatches (st : CacheState) : Prop :=
  match st.persisted with
  | some snap => snap.1 = st.index
  | none => st.index = []

/-! ### Concrete instances used by witnesses and counterexamples -/

/-- Library primitives in which every transform is the identity (a valid
instantiation of the round-trip laws). -/
def idPrims : Prims :=
  { md5 := fun s => s, gzip := fun s => some s, gunzip := fun s => some s,
    aesEnc := fun s => some s, aesDec := fun s => some s,
    jparse := fun s => some s }

/-- Library primitives in which every fallible transform throws. -/
def failPrims : Prims :=
  { md5 := fun s => s, gzip := fun _ => none, gunzip := fun _ => none,
    aesEnc := fun _ => none, aesDec := fun _ => none,
    jparse := fun s => some s }

/-- A configuration with both codec stages enabled. -/
def cfgOn : Config :=
  { maxCacheSize := 100, maxCacheAge := 1000,
    compressionEnabled := true, encryptionEnabled := true }

/-- A configuration with both codec stages disabled. -/
def cfgOff : Config :=
  { maxCacheSize := 100, maxCacheAge := 1000,
    compressionEnabled := false, encryptionEnabled := false }

/-- Index metadata of an entry recorded as encrypted. -/
def metaEnc : CacheMetadata :=
  { key := JSData.str "k", cacheKey := "k", timestamp := 0, ttl := 1000,
    expiresAt := 1000, size := 3, isCompressed := false, isEncrypted := true,
    dataType := "string", version := "1.0" }

/-- A consistent state holding one entry recorded as encrypted whose stored
bytes the decipher primitive cannot reverse. -/
def stEnc : CacheState :=
  { index := [("k", metaEnc)], files := [("k", (metaEnc, "ENC"))],
    stats := { totalSize := 3, totalFiles := 1, hits := 0, misses := 0,
               lastCleanup := none },
    persisted := none }

/-- Metadata of a plain stored string entry with the given key, write time
and encoded size (codec stages off). -/
def mkMeta (k : String) (ts msize : Nat) : CacheMetadata :=
  { key := JSData.str k, cacheKey := k, timestamp := ts, ttl := 1000,
    expiresAt := ts + 1000, size := msize, isCompressed := false,
    isEncrypted := false, dataType := "string", version := "1.0" }

/-- A consistent state holding five entries of 30 bytes each (total 150),
written at times 1..5. -/
def stFive : CacheState :=
  { index := [("a", mkMeta "a" 1 30), ("b", mkMeta "b" 2 30),
              ("c", mkMeta "c" 3 30), ("d", mkMeta "d" 4 30),
              ("e", mkMeta "e" 5 30)],
    files := [("a", (mkMeta "a" 1 30, "v")), ("b", (mkMeta "b" 2 30, "v")),
              ("c", (mkMeta "c" 3 30, "v")), ("d", (mkMeta "d" 4 30, "v")),
              ("e", (mkMeta "e" 5 30, "v"))],
    stats := { totalSize := 150, totalFiles := 5, hits := 0, misses := 0,
               lastCleanup := none },
    persisted := none }

/-- An inconsistent state (an index entry with no blob file) whose snapshot
initially matches the in-memory index. -/
def stOrphan : CacheState :=
  { index := [("k", metaEnc)], files := [],
    stats := { totalSize := 3, totalFiles := 1, hits := 0, misses := 0,
               lastCleanup := none },
    persisted := some ([("k", metaEnc)],
      { totalSize := 3, totalFiles := 1, hits := 0, misses := 0,
        lastCleanup := none }) }

/-! ### Association-list lemmas -/

theorem mapGet_mapSet {α : Type} (l : List (String × α)) (k k' : String)
    (v : α) :
    mapGet (mapSet l k v) k' = if k = k' then some v else mapGet l k' := by
  induction l with
  | nil => simp [mapSet, mapGet]
  | cons hd tl ih =>
    obtain ⟨k0, v0⟩ := hd
    by_cases h0 : k0 = k
    · subst h0
      by_cases h1 : k0 = k'
      · subst h1; simp [mapSet, mapGet]
      · simp [mapSet, mapGet, h1]
    · by_cases h1 : k0 = k'
      · subst h1
        have : ¬ k = k0 := fun h => h0 h.symm
        simp [mapSet, mapGet, h0, this]
      · simp [mapSet, mapGet, h0, h1, ih]

theorem mapGet_mapDelete {α : Type} (l : List (String × α)) (k k' : String) :
    mapGet (mapDelete l k) k' = if k = k' then none else mapGet l k' := by
  induction l with
  | nil => simp [mapDelete, mapGet]
  | cons hd tl ih =>
    obtain ⟨k0, v0⟩ := hd
    by_cases h0 : k0 = k
    · subst h0
      by_cases h1 : k0 = k'
      · subst h1; simpa [mapDelete, mapGet] using ih
      · have : ¬ k0 = k' := h1
        simp [mapDelete, mapGet, this, ih]
    · by_cases h1 : k0 = k'
      · subst h1
        have : ¬ k = k0 := fun h => h0 h.symm
        simp [mapDelete, mapGet, h0, this]
      · simp [mapDelete, mapGet, h0, h1, ih]

theorem mapDelete_sublist {α : Type} (l : List (String × α)) (k : String) :
    (mapDelete l k).Sublist l := by
  induction l with
  | nil => simp [mapDelete]
  | cons hd tl ih =>
    obtain ⟨k0, v0⟩ := hd
    by_cases h0 : k0 = k
    · simp only [mapDelete, if_pos h0]
      exact ih.cons _
    · simp only [mapDelete, if_neg h0]
      exact ih.cons₂ _

theorem keys_nodup_mapDelete {α : Type} (l : List (String × α)) (k : String)
    (h : (l.map Prod.fst).Nodup) : ((mapDelete l k).map Prod.fst).Nodup :=
  ((mapDelete_sublist l k).map Prod.fst).nodup h

theorem mem_keys_mapSet {α : Type} (l : List (String × α)) (k k' : String)
    (v : α) :
    k' ∈ (mapSet l k v).map Prod.fst ↔ k' = k ∨ k' ∈ l.map Prod.fst := by
  induction l with
  | nil => simp [mapSet]
  | cons hd tl ih =>
    obtain ⟨k0, v0⟩ := hd
    by_cases h0 : k0 = k
    · subst h0
      simp [mapSet]
    · simp [mapSet, h0, ih]
      tauto

theorem keys_nodup_mapSet {α : Type} (l : List (String × α)) (k : String)
    (v : α) (h : (l.map Prod.fst).Nodup) :
    ((mapSet l k v).map Prod.fst).Nodup := by
  induction l with
  | nil => simp [mapSet]
  | cons hd tl ih =>
    obtain ⟨k0, v0⟩ := hd
    simp only [List.map_cons, List.nodup_cons] at h
    by_cases h0 : k0 = k
    · subst h0
      have hred : mapSet ((k0, v0) :: tl) k0 v = (k0, v) :: tl := by
        simp [mapSet]
      rw [hred]
      simp only [List.map_cons, List.nodup_cons]
      exact h
    · simp only [mapSet, if_neg h0, List.map_cons, List.nodup_cons]
      refine ⟨fun hmem => ?_, ih h.2⟩
      rcases (mem_keys_mapSet tl k k0 v).1 hmem with h1 | h1
      · exact h0 h1
      · exact h.1 h1

theorem mapGet_isSome_of_mem {α : Type} {l : List (String × α)} {k : String}
    {v : α} (h : (k, v) ∈ l) : (mapGet l k).isSome := by
  induction l with
  | nil => cases h
  | cons hd tl ih =>
    obtain ⟨k0, v0⟩ := hd
    rcases List.mem_cons.1 h with h1 | h1
    · cases h1
      simp [mapGet]
    · by_cases h0 : k0 = k
      · simp [mapGet, h0]
      · simp only [mapGet, if_neg h0]
        exact ih h1

theorem mapGet_isSome_iff_mem_keys {α : Type} (l : List (String × α))
    (k : String) : (mapGet l k).isSome ↔ k ∈ l.map Prod.fst := by
  induction l with
  | nil => simp [mapGet]
  | cons hd tl ih =>
    obtain ⟨k0, v0⟩ := hd
    by_cases h0 : k0 = k
    · subst h0; simp [mapGet]
    · simp only [mapGet, if_neg h0, List.map_cons, List.mem_cons, ih]
      constructor
      · exact fun h => Or.inr h
      · rintro (h | h)
        · exact absurd h.symm h0
        · exact h

theorem countP_keys_eq_one {α : Type} (l : List (String × α)) (k : String)
    (hnd : (l.map Prod.fst).Nodup) (hs : (mapGet l k).isSome) :
    l.countP (fun e => e.1 = k) = 1 := by
  induction l with
  | nil => simp [mapGet] at hs
  | cons hd tl ih =>
    obtain ⟨k0, v0⟩ := hd
    simp only [List.map_cons, List.nodup_cons] at hnd
    by_cases h0 : k0 = k
    · subst h0
      have htl : tl.countP (fun e => e.1 = k0) = 0 := by
        refine List.countP_eq_zero.2 fun e he => ?_
        simp only [decide_eq_true_eq]
        intro hek
        exact hnd.1 (List.mem_map.2 ⟨e, he, hek⟩)
      simp [List.countP_cons, htl]
    · simp only [mapGet, if_neg h0] at hs
      have := ih hnd.2 hs
      simp [List.countP_cons, this, h0]

theorem mapDelete_eq_filter {α : Type} (l : List (String × α)) (k : String) :
    mapDelete l k = l.filter (fun e => e.1 != k) := by
  induction l with
  | nil => simp [mapDelete]
  | cons hd tl ih =>
    obtain ⟨k0, v0⟩ := hd
    by_cases h0 : k0 = k
    · subst h0
      simp [mapDelete, List.filter_cons, ih]
    · simp [mapDelete, List.filter_cons, h0, ih, bne_iff_ne]

theorem mapDelete_perm {α : Type} {l : List (String × α)} {k : String}
    {m : α} {rest : List (String × α)} (hperm : l.Perm ((k, m) :: rest))
    (hnd : (l.map Prod.fst).Nodup) : (mapDelete l k).Perm rest := by
  rw [mapDelete_eq_filter]
  have h1 : (l.filter (fun e => e.1 != k)).Perm
      (((k, m) :: rest).filter (fun e => e.1 != k)) := hperm.filter _
  have hk : k ∉ rest.map Prod.fst := by
    have h3 : ((((k, m) :: rest)).map Prod.fst).Nodup :=
      (hperm.map Prod.fst).nodup hnd
    simp only [List.map_cons, List.nodup_cons] at h3
    exact h3.1
  have h2 : ((k, m) :: rest).filter (fun e => e.1 != k) = rest := by
    rw [List.filter_cons]
    simp only [bne_self_eq_false, Bool.false_eq_true, if_false]
    refine List.filter_eq_self.2 fun e he => ?_
    simp only [bne_iff_ne, ne_eq, decide_eq_true_eq]
    intro hek
    exact hk (List.mem_map.2 ⟨e, he, hek⟩)
  rw [h2] at h1
  exact h1

/-! ### Codec round-trip lemmas -/

theorem decryptData_encryptData (p : Prims) (cfg : Config)
    (haes : ∀ x y, p.aesEnc x = some y → p.aesDec y = some x) (c : String) :
    decryptData p cfg (encryptData p cfg c) (encryptData p cfg c != c) = c := by
  unfold encryptData decryptData
  cases hE : cfg.encryptionEnabled with
  | false => simp
  | true =>
    simp only [Bool.not_true, Bool.false_eq_true, if_false]
    cases hA : p.aesEnc c with
    | none => simp
    | some y =>
      by_cases hy : y = c
      · simp [hy]
      · have hd := haes c y hA
        simp [hy, hd, bne_iff_ne]

theorem decompressData_compressData (p : Prims) (cfg : Config)
    (hgz : ∀ x y, p.gzip x = some y → p.gunzip y = some x) (x : String) :
    decompressData p cfg (compressData p cfg x) (compressData p cfg x != x)
      = x := by
  unfold compressData decompressData
  cases hE : cfg.compressionEnabled with
  | false => simp
  | true =>
    simp only [Bool.not_true, Bool.false_eq_true, if_false]
    cases hA : p.gzip x with
    | none => simp
    | some y =>
      by_cases hy : y = x
      · simp [hy]
      · have hd := hgz x y hA
        simp [hy, hd, bne_iff_ne]

/-! ### Structural lemmas about the operations -/

theorem set_ok_index (p : Prims) (cfg : Config) (now : Nat) (key data : JSData)
    (ttlOpt : Option Nat) (st : CacheState) :
    (set p cfg now key data ttlOpt true st).2.index
      = mapSet st.index (generateCacheKey p key)
          (setMetadata p cfg now key data ttlOpt) := rfl

theorem set_ok_files (p : Prims) (cfg : Config) (now : Nat) (key data : JSData)
    (ttlOpt : Option Nat) (st : CacheState) :
    (set p cfg now key data ttlOpt true st).2.files
      = mapSet st.files (generateCacheKey p key)
          (setMetadata p cfg now key data ttlOpt, setEncoded p cfg data) := rfl

theorem get_congr_key (p : Prims) (cfg : Config) (now : Nat)
    {k1 k2 : JSData} (h : generateCacheKey p k1 = generateCacheKey p k2)
    (st : CacheState) : get p cfg now k1 st = get p cfg now k2 st := by
  simp only [get, delete, h]

theorem has_congr_key (p : Prims) (cfg : Config) (now : Nat)
    {k1 k2 : JSData} (h : generateCacheKey p k1 = generateCacheKey p k2)
    (st : CacheState) : has p cfg now k1 st = has p cfg now k2 st := by
  simp only [has, delete, h]

theorem delete_congr_key (p : Prims) (cfg : Config)
    {k1 k2 : JSData} (h : generateCacheKey p k1 = generateCacheKey p k2)
    (st : CacheState) : delete p cfg k1 st = delete p cfg k2 st := by
  simp only [delete, h]

theorem mapSet_length_of_isSome {α : Type} (l : List (String × α))
    (k : String) (v : α) (h : (mapGet l k).isSome) :
    (mapSet l k v).length = l.length := by
  induction l with
  | nil => simp [mapGet] at h
  | cons hd tl ih =>
    obtain ⟨k0, v0⟩ := hd
    by_cases h0 : k0 = k
    · simp [mapSet, h0]
    · simp only [mapGet, if_neg h0] at h
      simp [mapSet, h0, ih h]

/-! ### Stats lemmas -/

theorem delete_stats_hm (p : Prims) (cfg : Config) (key : JSData)
    (st : CacheState) :
    (delete p cfg key st).2.stats.hits = st.stats.hits
    ∧ (delete p cfg key st).2.stats.misses = st.stats.misses := by
  unfold delete
  cases h : mapGet st.index (generateCacheKey p key) <;>
    simp [h, updateCacheStats, saveCacheIndex]

theorem get_stats_delta (p : Prims) (cfg : Config) (now : Nat) (key : JSData)
    (st : CacheState) :
    (get p cfg now key st).2.stats.hits
      = st.stats.hits + (if getWouldHit p cfg now key st then 1 else 0)
    ∧ (get p cfg now key st).2.stats.misses
      = st.stats.misses + (if getWouldHit p cfg now key st then 0 else 1) := by
  unfold get getWouldHit
  cases h1 : mapGet st.index (generateCacheKey p key) with
  | none => simp [h1, bumpMiss]
  | some m =>
    by_cases h2 : now > m.expiresAt
    · simp [h1, h2, bumpMiss, (delete_stats_hm p cfg key st).1,
        (delete_stats_hm p cfg key st).2]
    · cases h3 : mapGet st.files (generateCacheKey p key) with
      | none => simp [h1, h2, h3, bumpMiss]
      | some fc =>
        by_cases h4 : m.dataType = "string"
        · simp [h1, h2, h3, h4, bumpHit]
        · cases h5 : p.jparse (decompressData p cfg
              (decryptData p cfg fc.2 m.isEncrypted) m.isCompressed) with
          | none => simp [h1, h2, h3, h4, h5, bumpMiss]
          | some j => simp [h1, h2, h3, h4, h5, bumpHit]

theorem get_result_isSome (p : Prims) (cfg : Config) (now : Nat)
    (key : JSData) (st : CacheState) :
    (get p cfg now key st).1.isSome = getWouldHit p cfg now key st := by
  unfold get getWouldHit
  cases h1 : mapGet st.index (generateCacheKey p key) with
  | none => simp [h1]
  | some m =>
    by_cases h2 : now > m.expiresAt
    · simp [h1, h2]
    · cases h3 : mapGet st.files (generateCacheKey p key) with
      | none => simp [h1, h2, h3]
      | some fc =>
        by_cases h4 : m.dataType = "string"
        · simp [h1, h2, h3, h4]
        · cases h5 : p.jparse (decompressData p cfg
              (decryptData p cfg fc.2 m.isEncrypted) m.isCompressed) with
          | none => simp [h1, h2, h3, h4, h5]
          | some j => simp [h1, h2, h3, h4, h5]

theorem countHits_add_countMisses (l : List (Option JSData)) :
    countHits l + countMisses l = l.length := by
  induction l with
  | nil => rfl
  | cons a l ih =>
    simp only [countHits, countMisses, List.length_cons]
    cases a.isSome <;> simp <;> omega

theorem runGets_stats (p : Prims) (cfg : Config)
    (calls : List (Nat × JSData)) : ∀ st : CacheState,
    (runGets p cfg calls st).2.stats.hits
      = st.stats.hits + countHits (runGets p cfg calls st).1
    ∧ (runGets p cfg calls st).2.stats.misses
      = st.stats.misses + countMisses (runGets p cfg calls st).1
    ∧ (runGets p cfg calls st).1.length = calls.length := by
  induction calls with
  | nil => intro st; simp [runGets, countHits, countMisses]
  | cons c rest ih =>
    intro st
    obtain ⟨now, key⟩ := c
    obtain ⟨hg1, hg2⟩ := get_stats_delta p cfg now key st
    have hs := get_result_isSome p cfg now key st
    obtain ⟨h1, h2, h3⟩ := ih (get p cfg now key st).2
    simp only [runGets, countHits, countMisses, List.length_cons]
    refine ⟨?_, ?_, by omega⟩
    · rw [h1, hg1, hs]
      cases getWouldHit p cfg now key st <;> simp <;> omega
    · rw [h2, hg2, hs]
      cases getWouldHit p cfg now key st <;> simp <;> omega

theorem cleanupExpiredGo_stats (now : Nat) (entries : List (String × CacheMetadata)) :
    ∀ (st : CacheState) (cnt sz : Nat),
    (cleanupExpiredGo now entries st cnt sz).2.2.stats = st.stats := by
  induction entries with
  | nil => intro st cnt sz; rfl
  | cons hd rest ih =>
    intro st cnt sz
    obtain ⟨k, m⟩ := hd
    unfold cleanupExpiredGo
    by_cases h : now > m.expiresAt
    · simp only [if_pos h]
      exact ih _ _ _
    · simp only [if_neg h]
      exact ih _ _ _

theorem cleanupOversizedGo_stats (maxSize t0 : Nat)
    (entries : List (String × CacheMetadata)) :
    ∀ (st : CacheState) (cnt sz : Nat),
    (cleanupOversizedGo maxSize t0 entries st cnt sz).2.2.stats = st.stats := by
  induction entries with
  | nil => intro st cnt sz; rfl
  | cons hd rest ih =>
    intro st cnt sz
    obtain ⟨k, m⟩ := hd
    unfold cleanupOversizedGo
    by_cases h : t0 - sz ≤ maxSize
    · simp only [if_pos h]
    · simp only [if_neg h]
      exact ih _ _ _

theorem cleanupExpired_stats_hm (now : Nat) (st : CacheState) :
    (cleanupExpired now st).2.stats.hits = st.stats.hits
    ∧ (cleanupExpired now st).2.stats.misses = st.stats.misses := by
  unfold cleanupExpired
  have hgo := cleanupExpiredGo_stats now st.index st 0 0
  by_cases h : (cleanupExpiredGo now st.index st 0 0).1 > 0 <;>
    simp [h, updateCacheStats, saveCacheIndex, hgo]

theorem cleanupOversized_stats_hm (cfg : Config) (st : CacheState) :
    (cleanupOversized cfg st).2.stats.hits = st.stats.hits
    ∧ (cleanupOversized cfg st).2.stats.misses = st.stats.misses := by
  unfold cleanupOversized
  by_cases h0 : st.stats.totalSize ≤ cfg.maxCacheSize
  · simp [h0]
  · have hgo := cleanupOversizedGo_stats cfg.maxCacheSize st.stats.totalSize
      (List.insertionSort tsLE st.index) st 0 0
    by_cases h : (cleanupOversizedGo cfg.maxCacheSize st.stats.totalSize
        (List.insertionSort tsLE st.index) st 0 0).1 > 0 <;>
      simp [h0, h, updateCacheStats, saveCacheIndex, hgo]

theorem set_stats_hm (p : Prims) (cfg : Config) (now : Nat)
    (key data : JSData) (ttlOpt : Option Nat) (writeOk : Bool)
    (st : CacheState) :
    (set p cfg now key data ttlOpt writeOk st).2.stats.hits = st.stats.hits
    ∧ (set p cfg now key data ttlOpt writeOk st).2.stats.misses
        = st.stats.misses := by
  unfold set
  cases writeOk <;> simp [updateCacheStats, saveCacheIndex]

theorem has_stats_hm (p : Prims) (cfg : Config) (now : Nat) (key : JSData)
    (st : CacheState) :
    (has p cfg now key st).2.stats.hits = st.stats.hits
    ∧ (has p cfg now key st).2.stats.misses = st.stats.misses := by
  unfold has
  cases h1 : mapGet st.index (generateCacheKey p key) with
  | none => simp [h1]
  | some m =>
    by_cases h : now > m.expiresAt
    · simp [h1, h, (delete_stats_hm p cfg key st).1,
        (delete_stats_hm p cfg key st).2]
    · simp [h1, h]

/-! ### Consistency-invariant preservation -/

theorem consistencyInv_of_eq {s s' : CacheState} (h : ConsistencyInv s)
    (hi : s'.index = s.index) (hf : s'.files = s.files) :
    ConsistencyInv s' := by
  unfold ConsistencyInv at h ⊢
  rw [hi, hf]
  exact h

theorem inv_initState : ConsistencyInv initState := by
  refine ⟨fun k => ?_, by simp [initState], by simp [initState]⟩
  simp [initState, mapGet]

theorem inv_set (p : Prims) (cfg : Config) (now : Nat) (key data : JSData)
    (ttlOpt : Option Nat) (writeOk : Bool) (st : CacheState)
    (h : ConsistencyInv st) :
    ConsistencyInv (set p cfg now key data ttlOpt writeOk st).2 := by
  cases writeOk with
  | false => exact h
  | true =>
    obtain ⟨hiff, hni, hnf⟩ := h
    refine ⟨fun k' => ?_, ?_, ?_⟩
    · rw [set_ok_index, set_ok_files, mapGet_mapSet, mapGet_mapSet]
      by_cases hk : generateCacheKey p key = k'
      · simp [hk]
      · simp [hk, hiff k']
    · rw [set_ok_index]
      exact keys_nodup_mapSet _ _ _ hni
    · rw [set_ok_files]
      exact keys_nodup_mapSet _ _ _ hnf

theorem delete_state_of_missing (p : Prims) (cfg : Config) (key : JSData)
    (st : CacheState)
    (h : mapGet st.index (generateCacheKey p key) = none) :
    delete p cfg key st = (false, st) := by
  simp only [delete, h]

theorem delete_index_of_found (p : Prims) (cfg : Config) (key : JSData)
    (st : CacheState) {m : CacheMetadata}
    (h : mapGet st.index (generateCacheKey p key) = some m) :
    (delete p cfg key st).2.index
      = mapDelete st.index (generateCacheKey p key) := by
  simp only [delete, h, saveCacheIndex]

theorem delete_files_of_found (p : Prims) (cfg : Config) (key : JSData)
    (st : CacheState) {m : CacheMetadata}
    (h : mapGet st.index (generateCacheKey p key) = some m) :
    (delete p cfg key st).2.files
      = mapDelete st.files (generateCacheKey p key) := by
  simp only [delete, h, saveCacheIndex]

theorem inv_delete (p : Prims) (cfg : Config) (key : JSData) (st : CacheState)
    (h : ConsistencyInv st) : ConsistencyInv (delete p cfg key st).2 := by
  cases hL : mapGet st.index (generateCacheKey p key) with
  | none => rw [delete_state_of_missing p cfg key st hL]; exact h
  | some m =>
    obtain ⟨hiff, hni, hnf⟩ := h
    refine ⟨fun k' => ?_, ?_, ?_⟩
    · rw [delete_index_of_found p cfg key st hL,
        delete_files_of_found p cfg key st hL, mapGet_mapDelete,
        mapGet_mapDelete]
      by_cases hk : generateCacheKey p key = k'
      · simp [hk]
      · simp [hk, hiff k']
    · rw [delete_index_of_found p cfg key st hL]
      exact keys_nodup_mapDelete _ _ hni
    · rw [delete_files_of_found p cfg key st hL]
      exact keys_nodup_mapDelete _ _ hnf

theorem inv_get (p : Prims) (cfg : Config) (now : Nat) (key : JSData)
    (st : CacheState) (h : ConsistencyInv st) :
    ConsistencyInv (get p cfg now key st).2 := by
  unfold get
  cases h1 : mapGet st.index (generateCacheKey p key) with
  | none =>
    simp only [h1]
    exact consistencyInv_of_eq h rfl rfl
  | some m =>
    by_cases h2 : now > m.expiresAt
    · simp only [h1, if_pos h2]
      exact consistencyInv_of_eq (inv_delete p cfg key st h) rfl rfl
    · simp only [h1, if_neg h2]
      cases h3 : mapGet st.files (generateCacheKey p key) with
      | none =>
        have hs : (mapGet st.index (generateCacheKey p key)).isSome := by
          rw [h1]; rfl
        have := (h.1 (generateCacheKey p key)).1 hs
        rw [h3] at this
        cases this
      | some fc =>
        by_cases h4 : m.dataType = "string"
        · simp only [h4, if_pos rfl]
          exact consistencyInv_of_eq h rfl rfl
        · simp only [if_neg h4]
          cases h5 : p.jparse (decompressData p cfg
              (decryptData p cfg fc.2 m.isEncrypted) m.isCompressed) with
          | none => exact consistencyInv_of_eq h rfl rfl
          | some j => exact consistencyInv_of_eq h rfl rfl

theorem inv_has (p : Prims) (cfg : Config) (now : Nat) (key : JSData)
    (st : CacheState) (h : ConsistencyInv st) :
    ConsistencyInv (has p cfg now key st).2 := by
  unfold has
  cases h1 : mapGet st.index (generateCacheKey p key) with
  | none => exact h
  | some m =>
    by_cases h2 : now > m.expiresAt
    · simp only [if_pos h2]
      exact inv_delete p cfg key st h
    · simp only [if_neg h2]
      exact h

theorem inv_cleanupExpiredGo (now : Nat)
    (entries : List (String × CacheMetadata)) :
    ∀ (st : CacheState) (cnt sz : Nat), ConsistencyInv st →
    ConsistencyInv (cleanupExpiredGo now entries st cnt sz).2.2 := by
  induction entries with
  | nil => intro st cnt sz h; exact h
  | cons hd rest ih =>
    intro st cnt sz h
    obtain ⟨k, m⟩ := hd
    unfold cleanupExpiredGo
    by_cases h2 : now > m.expiresAt
    · simp only [if_pos h2]
      refine ih _ _ _ ⟨fun k' => ?_, ?_, ?_⟩
      · show (mapGet (mapDelete st.index k) k').isSome
          ↔ (mapGet (mapDelete st.files k) k').isSome
        rw [mapGet_mapDelete, mapGet_mapDelete]
        by_cases hk : k = k'
        · simp [hk]
        · simp [hk, h.1 k']
      · exact keys_nodup_mapDelete _ _ h.2.1
      · exact keys_nodup_mapDelete _ _ h.2.2
    · simp only [if_neg h2]
      exact ih _ _ _ h

theorem inv_cleanupOversizedGo (maxSize t0 : Nat)
    (entries : List (String × CacheMetadata)) :
    ∀ (st : CacheState) (cnt sz : Nat), ConsistencyInv st →
    ConsistencyInv (cleanupOversizedGo maxSize t0 entries st cnt sz).2.2 := by
  induction entries with
  | nil => intro st cnt sz h; exact h
  | cons hd rest ih =>
    intro st cnt sz h
    obtain ⟨k, m⟩ := hd
    unfold cleanupOversizedGo
    by_cases h2 : t0 - sz ≤ maxSize
    · simp only [if_pos h2]
      exact h
    · simp only [if_neg h2]
      refine ih _ _ _ ⟨fun k' => ?_, ?_, ?_⟩
      · show (mapGet (mapDelete st.index k) k').isSome
          ↔ (mapGet (mapDelete st.files k) k').isSome
        rw [mapGet_mapDelete, mapGet_mapDelete]
        by_cases hk : k = k'
        · simp [hk]
        · simp [hk, h.1 k']
      · exact keys_nodup_mapDelete _ _ h.2.1
      · exact keys_nodup_mapDelete _ _ h.2.2

theorem inv_cleanupExpired (now : Nat) (st : CacheState)
    (h : ConsistencyInv st) : ConsistencyInv (cleanupExpired now st).2 := by
  unfold cleanupExpired
  have hgo := inv_cleanupExpiredGo now st.index st 0 0 h
  by_cases hc : (cleanupExpiredGo now st.index st 0 0).1 > 0
  · simp only [if_pos hc]
    exact consistencyInv_of_eq hgo rfl rfl
  · simp only [if_neg hc]
    exact hgo

theorem inv_cleanupOversized (cfg : Config) (st : CacheState)
    (h : ConsistencyInv st) : ConsistencyInv (cleanupOversized cfg st).2 := by
  unfold cleanupOversized
  by_cases h0 : st.stats.totalSize ≤ cfg.maxCacheSize
  · simp only [if_pos h0]
    exact h
  · simp only [if_neg h0]
    have hgo := inv_cleanupOversizedGo cfg.maxCacheSize st.stats.totalSize
      (List.insertionSort tsLE st.index) st 0 0 h
    by_cases hc : (cleanupOversizedGo cfg.maxCacheSize st.stats.totalSize
        (List.insertionSort tsLE st.index) st 0 0).1 > 0
    · simp only [if_pos hc]
      exact consistencyInv_of_eq hgo rfl rfl
    · simp only [if_neg hc]
      exact hgo

theorem inv_cleanup (cfg : Config) (now : Nat) (st : CacheState)
    (h : ConsistencyInv st) : ConsistencyInv (cleanup cfg now st).2 := by
  show ConsistencyInv (cleanupOversized cfg (cleanupExpired now st).2).2
  exact inv_cleanupOversized cfg _ (inv_cleanupExpired now st h)

theorem clearGo_files_mapGet (idx : List (String × CacheMetadata)) :
    ∀ (files : List (String × (CacheMetadata × String))) (cnt : Nat)
    (k' : String),
    mapGet (clearGo idx files cnt).1 k'
      = if k' ∈ idx.map Prod.fst then none else mapGet files k' := by
  induction idx with
  | nil => intro files cnt k'; simp [clearGo]
  | cons hd rest ih =>
    intro files cnt k'
    obtain ⟨k, m⟩ := hd
    unfold clearGo
    by_cases hf : (mapGet files k).isSome
    · simp only [if_pos hf]
      rw [ih]
      by_cases hr : k' ∈ rest.map Prod.fst
      · simp [hr]
      · by_cases hk : k = k'
        · subst hk
          simp [hr, mapGet_mapDelete]
        · have : ¬ k' ∈ ((k, m) :: rest).map Prod.fst := by
            simp only [List.map_cons, List.mem_cons]
            rintro (h1 | h1)
            · exact hk h1.symm
            · exact hr h1
          simp [hr, this, mapGet_mapDelete, hk, Ne.symm hk]
    · simp only [if_neg hf]
      rw [ih]
      by_cases hr : k' ∈ rest.map Prod.fst
      · simp [hr]
      · by_cases hk : k = k'
        · subst hk
          have hnone : mapGet files k = none := by
            cases hmk : mapGet files k
            · rfl
            · rw [hmk] at hf; simp at hf
          simp [hr, hnone]
        · have : ¬ k' ∈ ((k, m) :: rest).map Prod.fst := by
            simp only [List.map_cons, List.mem_cons]
            rintro (h1 | h1)
            · exact hk h1.symm
            · exact hr h1
          simp [hr, this, Ne.symm hk]

theorem clearGo_files_sublist (idx : List (String × CacheMetadata)) :
    ∀ (files : List (String × (CacheMetadata × String))) (cnt : Nat),
    (clearGo idx files cnt).1.Sublist files := by
  induction idx with
  | nil => intro files cnt; exact List.Sublist.refl _
  | cons hd rest ih =>
    intro files cnt
    obtain ⟨k, m⟩ := hd
    unfold clearGo
    by_cases hf : (mapGet files k).isSome
    · simp only [if_pos hf]
      exact (ih _ _).trans (mapDelete_sublist files k)
    · simp only [if_neg hf]
      exact ih _ _

theorem inv_clear (now : Nat) (st : CacheState) (h : ConsistencyInv st) :
    ConsistencyInv (clear now st).2 := by
  refine ⟨fun k' => ?_, by simp [clear, saveCacheIndex], ?_⟩
  · show (mapGet ([] : List (String × CacheMetadata)) k').isSome
      ↔ (mapGet (clearGo st.index st.files 0).1 k').isSome
    rw [clearGo_files_mapGet]
    by_cases hr : k' ∈ st.index.map Prod.fst
    · simp [hr, mapGet]
    · have : ¬ (mapGet st.files k').isSome := by
        intro hs
        exact hr ((mapGet_isSome_iff_mem_keys st.index k').1
          ((h.1 k').2 hs))
      simp only [hr, if_neg]
      cases hmk : mapGet st.files k'
      · simp [mapGet]
      · rw [hmk] at this; simp at this
  · show ((clearGo st.index st.files 0).1.map Prod.fst).Nodup
    exact ((clearGo_files_sublist st.index st.files 0).map Prod.fst).nodup
      h.2.2

theorem inv_runOp (p : Prims) (cfg : Config) (op : CacheOp) (st : CacheState)
    (h : ConsistencyInv st) : ConsistencyInv (runOp p cfg op st) := by
  cases op with
  | setOp now key data ttl => exact inv_set p cfg now key data ttl true st h
  | getOp now key => exact inv_get p cfg now key st h
  | hasOp now key => exact inv_has p cfg now key st h
  | delOp key => exact inv_delete p cfg key st h
  | cleanupExpiredOp now => exact inv_cleanupExpired now st h
  | cleanupOversizedOp => exact inv_cleanupOversized cfg st h
  | cleanupOp now => exact inv_cleanup cfg now st h
  | clearOp now => exact inv_clear now st h
  | getStatsOp => exact h

theorem inv_runOps (p : Prims) (cfg : Config) (ops : List CacheOp) :
    ∀ st : CacheState, ConsistencyInv st →
    ConsistencyInv (runOps p cfg ops st) := by
  induction ops with
  | nil => intro st h; exact h
  | cons op rest ih =>
    intro st h
    exact ih _ (inv_runOp p cfg op st h)

/-! ### Persistence lemmas -/

theorem pmatch_of_eq {s s' : CacheState} (h : persistedMatches s)
    (hi : s'.index = s.index) (hp : s'.persisted = s.persisted) :
    persistedMatches s' := by
  unfold persistedMatches at h ⊢
  rw [hi, hp]
  exact h

theorem pmatch_save (s : CacheState) :
    persistedMatches (saveCacheIndex s) := rfl

theorem pmatch_set (p : Prims) (cfg : Config) (now : Nat) (key data : JSData)
    (ttlOpt : Option Nat) (writeOk : Bool) (st : CacheState)
    (h : persistedMatches st) :
    persistedMatches (set p cfg now key data ttlOpt writeOk st).2 := by
  cases writeOk with
  | false => exact h
  | true => exact pmatch_save _

theorem pmatch_delete (p : Prims) (cfg : Config) (key : JSData)
    (st : CacheState) (h : persistedMatches st) :
    persistedMatches (delete p cfg key st).2 := by
  cases hL : mapGet st.index (generateCacheKey p key) with
  | none =>
    rw [delete_state_of_missing p cfg key st hL]
    exact h
  | some m =>
    simp only [delete, hL]
    exact pmatch_save _

theorem pmatch_get (p : Prims) (cfg : Config) (now : Nat) (key : JSData)
    (st : CacheState) (hInv : ConsistencyInv st) (h : persistedMatches st) :
    persistedMatches (get p cfg now key st).2 := by
  unfold get
  cases h1 : mapGet st.index (generateCacheKey p key) with
  | none =>
    simp only [h1]
    exact pmatch_of_eq h rfl rfl
  | some m =>
    by_cases h2 : now > m.expiresAt
    · simp only [h1, if_pos h2]
      exact pmatch_of_eq (pmatch_delete p cfg key st h) rfl rfl
    · simp only [h1, if_neg h2]
      cases h3 : mapGet st.files (generateCacheKey p key) with
      | none =>
        have hs : (mapGet st.index (generateCacheKey p key)).isSome := by
          rw [h1]; rfl
        have hcontra := (hInv.1 (generateCacheKey p key)).1 hs
        rw [h3] at hcontra
        cases hcontra
      | some fc =>
        by_cases h4 : m.dataType = "string"
        · simp only [h4, if_pos rfl]
          exact pmatch_of_eq h rfl rfl
        · simp only [if_neg h4]
          cases h5 : p.jparse (decompressData p cfg
              (decryptData p cfg fc.2 m.isEncrypted) m.isCompressed) with
          | none => exact pmatch_of_eq h rfl rfl
          | some j => exact pmatch_of_eq h rfl rfl

theorem pmatch_has (p : Prims) (cfg : Config) (now : Nat) (key : JSData)
    (st : CacheState) (h : persistedMatches st) :
    persistedMatches (has p cfg now key st).2 := by
  unfold has
  cases h1 : mapGet st.index (generateCacheKey p key) with
  | none => exact h
  | some m =>
    by_cases h2 : now > m.expiresAt
    · simp only [if_pos h2]
      exact pmatch_delete p cfg key st h
    · simp only [if_neg h2]
      exact h

theorem cleanupExpiredGo_cnt_le (now : Nat)
    (entries : List (String × CacheMetadata)) :
    ∀ (st : CacheState) (cnt sz : Nat),
    cnt ≤ (cleanupExpiredGo now entries st cnt sz).1 := by
  induction entries with
  | nil => intro st cnt sz; exact le_refl _
  | cons hd rest ih =>
    intro st cnt sz
    obtain ⟨k, m⟩ := hd
    unfold cleanupExpiredGo
    by_cases h2 : now > m.expiresAt
    · simp only [if_pos h2]
      exact (Nat.le_succ cnt).trans (ih _ _ _)
    · simp only [if_neg h2]
      exact ih _ _ _

theorem cleanupExpiredGo_state_of_cnt (now : Nat)
    (entries : List (String × CacheMetadata)) :
    ∀ (st : CacheState) (cnt sz : Nat),
    (cleanupExpiredGo now entries st cnt sz).1 = cnt →
    (cleanupExpiredGo now entries st cnt sz).2.2 = st := by
  induction entries with
  | nil => intro st cnt sz _; rfl
  | cons hd rest ih =>
    intro st cnt sz hc
    obtain ⟨k, m⟩ := hd
    unfold cleanupExpiredGo at hc ⊢
    by_cases h2 : now > m.expiresAt
    · simp only [if_pos h2] at hc
      have := cleanupExpiredGo_cnt_le now rest
        { st with files := mapDelete st.files k,
                  index := mapDelete st.index k } (cnt + 1)
        (if (mapGet st.files k).isSome then sz + m.size else sz)
      omega
    · simp only [if_neg h2] at hc ⊢
      exact ih _ _ _ hc

theorem cleanupOversizedGo_cnt_le (maxSize t0 : Nat)
    (entries : List (String × CacheMetadata)) :
    ∀ (st : CacheState) (cnt sz : Nat),
    cnt ≤ (cleanupOversizedGo maxSize t0 entries st cnt sz).1 := by
  induction entries with
  | nil => intro st cnt sz; exact le_refl _
  | cons hd rest ih =>
    intro st cnt sz
    obtain ⟨k, m⟩ := hd
    unfold cleanupOversizedGo
    by_cases h2 : t0 - sz ≤ maxSize
    · simp only [if_pos h2]
      exact le_refl _
    · simp only [if_neg h2]
      exact (Nat.le_succ cnt).trans (ih _ _ _)

theorem cleanupOversizedGo_state_of_cnt (maxSize t0 : Nat)
    (entries : List (String × CacheMetadata)) :
    ∀ (st : CacheState) (cnt sz : Nat),
    (cleanupOversizedGo maxSize t0 entries st cnt sz).1 = cnt →
    (cleanupOversizedGo maxSize t0 entries st cnt sz).2.2 = st := by
  induction entries with
  | nil => intro st cnt sz _; rfl
  | cons hd rest ih =>
    intro st cnt sz hc
    obtain ⟨k, m⟩ := hd
    unfold cleanupOversizedGo at hc ⊢
    by_cases h2 : t0 - sz ≤ maxSize
    · simp only [if_pos h2]
    · simp only [if_neg h2] at hc ⊢
      have := cleanupOversizedGo_cnt_le maxSize t0 rest
        { st with files := mapDelete st.files k,
                  index := mapDelete st.index k } (cnt + 1)
        (if (mapGet st.files k).isSome then sz + m.size else sz)
      omega

theorem pmatch_cleanupExpired (now : Nat) (st : CacheState)
    (h : persistedMatches st) :
    persistedMatches (cleanupExpired now st).2 := by
  unfold cleanupExpired
  by_cases hc : (cleanupExpiredGo now st.index st 0 0).1 > 0
  · simp only [if_pos hc]
    exact pmatch_of_eq (pmatch_save _) rfl rfl
  · simp only [if_neg hc]
    have h0 : (cleanupExpiredGo now st.index st 0 0).1 = 0 := by omega
    rw [cleanupExpiredGo_state_of_cnt now st.index st 0 0 h0]
    exact h

theorem pmatch_cleanupOversized (cfg : Config) (st : CacheState)
    (h : persistedMatches st) :
    persistedMatches (cleanupOversized cfg st).2 := by
  unfold cleanupOversized
  by_cases h0 : st.stats.totalSize ≤ cfg.maxCacheSize
  · simp only [if_pos h0]
    exact h
  · simp only [if_neg h0]
    by_cases hc : (cleanupOversizedGo cfg.maxCacheSize st.stats.totalSize
        (List.insertionSort tsLE st.index) st 0 0).1 > 0
    · simp only [if_pos hc]
      exact pmatch_save _
    · simp only [if_neg hc]
      have hcz : (cleanupOversizedGo cfg.maxCacheSize st.stats.totalSize
          (List.insertionSort tsLE st.index) st 0 0).1 = 0 := by omega
      rw [cleanupOversizedGo_state_of_cnt cfg.maxCacheSize st.stats.totalSize
        (List.insertionSort tsLE st.index) st 0 0 hcz]
      exact h

theorem pmatch_cleanup (cfg : Config) (now : Nat) (st : CacheState)
    (h : persistedMatches st) : persistedMatches (cleanup cfg now st).2 := by
  show persistedMatches (cleanupOversized cfg (cleanupExpired now st).2).2
  exact pmatch_cleanupOversized cfg _ (pmatch_cleanupExpired now st h)

theorem pmatch_clear (now : Nat) (st : CacheState) :
    persistedMatches (clear now st).2 :=
  pmatch_save _

/-! ### Claim theorems -/

theorem cleanup_stats_hm (cfg : Config) (now : Nat) (st : CacheState) :
    (cleanup cfg now st).2.stats.hits = st.stats.hits
    ∧ (cleanup cfg now st).2.stats.misses = st.stats.misses := by
  show (cleanupOversized cfg (cleanupExpired now st).2).2.stats.hits
        = st.stats.hits
    ∧ (cleanupOversized cfg (cleanupExpired now st).2).2.stats.misses
        = st.stats.misses
  obtain ⟨h1, h2⟩ := cleanupExpired_stats_hm now st
  obtain ⟨h3, h4⟩ := cleanupOversized_stats_hm cfg (cleanupExpired now st).2
  exact ⟨by omega, by omega⟩

/-- C6: Stats accounting.  Each `get` call increments exactly one of the two
counters by one — the hit counter exactly when the entry is found, not
expired, its blob exists and decoding/deserialization succeeds — and any
sequence of N `get` calls grows `hits + misses` by exactly N, each counter
by its outcome count. -/
theorem claim_stats_accounting (p : Prims) (cfg : Config) :
    (∀ now key st,
      (get p cfg now key st).2.stats.hits
        = st.stats.hits + (if getWouldHit p cfg now key st then 1 else 0)
      ∧ (get p cfg now key st).2.stats.misses
        = st.stats.misses + (if getWouldHit p cfg now key st then 0 else 1)
      ∧ (get p cfg now key st).1.isSome = getWouldHit p cfg now key st)
    ∧ (∀ calls st,
      (runGets p cfg calls st).2.stats.hits
          + (runGets p cfg calls st).2.stats.misses
        = st.stats.hits + st.stats.misses + calls.length
      ∧ (runGets p cfg calls st).2.stats.hits
        = st.stats.hits + countHits (runGets p cfg calls st).1
      ∧ (runGets p cfg calls st).2.stats.misses
        = st.stats.misses + countMisses (runGets p cfg calls st).1) := by
  refine ⟨fun now key st => ?_, fun calls st => ?_⟩
  · obtain ⟨h1, h2⟩ := get_stats_delta p cfg now key st
    exact ⟨h1, h2, get_result_isSome p cfg now key st⟩
  · obtain ⟨h1, h2, h3⟩ := runGets_stats p cfg calls st
    have h4 := countHits_add_countMisses (runGets p cfg calls st).1
    exact ⟨by omega, h1, h2⟩

/-- C7 counterexample: the hit counter decreases across `clear`.  From the
empty cache, a `set` followed by a hitting `get` leaves `hits = 1`, and a
subsequent `clear` resets `hits` to `0 < 1`, contradicting monotonicity
across every public operation. -/
theorem claim_counters_monotonic_counterexample :
    (runOps idPrims cfgOff
        [CacheOp.setOp 0 (JSData.str "k") (JSData.str "v") none,
         CacheOp.getOp 0 (JSData.str "k")] initState).stats.hits = 1
    ∧ (runOp idPrims cfgOff (CacheOp.clearOp 5)
        (runOps idPrims cfgOff
          [CacheOp.setOp 0 (JSData.str "k") (JSData.str "v") none,
           CacheOp.getOp 0 (JSData.str "k")] initState)).stats.hits = 0 :=
  ⟨rfl, rfl⟩

/-- C7 amended: the `hits` and `misses` counters never decrease across any
public operation except `clear`, which resets both counters (along with the
rest of the stats record) to zero. -/
theorem claim_counters_monotonic_amended (p : Prims) (cfg : Config)
    (op : CacheOp) (st : CacheState) :
    match op with
    | .clearOp _ => (runOp p cfg op st).stats.hits = 0
        ∧ (runOp p cfg op st).stats.misses = 0
    | _ => st.stats.hits ≤ (runOp p cfg op st).stats.hits
        ∧ st.stats.misses ≤ (runOp p cfg op st).stats.misses := by
  cases op with
  | setOp now key data ttl =>
    obtain ⟨h1, h2⟩ := set_stats_hm p cfg now key data ttl true st
    exact ⟨le_of_eq h1.symm, le_of_eq h2.symm⟩
  | getOp now key =>
    obtain ⟨h1, h2⟩ := get_stats_delta p cfg now key st
    constructor
    · rw [show (runOp p cfg (CacheOp.getOp now key) st).stats.hits
          = (get p cfg now key st).2.stats.hits from rfl, h1]
      exact Nat.le_add_right _ _
    · rw [show (runOp p cfg (CacheOp.getOp now key) st).stats.misses
          = (get p cfg now key st).2.stats.misses from rfl, h2]
      exact Nat.le_add_right _ _
  | hasOp now key =>
    obtain ⟨h1, h2⟩ := has_stats_hm p cfg now key st
    exact ⟨le_of_eq h1.symm, le_of_eq h2.symm⟩
  | delOp key =>
    obtain ⟨h1, h2⟩ := delete_stats_hm p cfg key st
    exact ⟨le_of_eq h1.symm, le_of_eq h2.symm⟩
  | cleanupExpiredOp now =>
    obtain ⟨h1, h2⟩ := cleanupExpired_stats_hm now st
    exact ⟨le_of_eq h1.symm, le_of_eq h2.symm⟩
  | cleanupOversizedOp =>
    obtain ⟨h1, h2⟩ := cleanupOversized_stats_hm cfg st
    exact ⟨le_of_eq h1.symm, le_of_eq h2.symm⟩
  | cleanupOp now =>
    obtain ⟨h1, h2⟩ := cleanup_stats_hm cfg now st
    exact ⟨le_of_eq h1.symm, le_of_eq h2.symm⟩
  | clearOp now => exact ⟨rfl, rfl⟩
  | getStatsOp => exact ⟨le_refl _, le_refl _⟩

/-- C2: Index/storage consistency invariant.  Starting from the empty cache,
after any finite sequence of public operations (with file I/O succeeding),
every `contentKey` in the in-memory index has exactly one blob file in the
cache directory and every blob file has exactly one index entry. -/
theorem claim_index_storage_consistency (p : Prims) (cfg : Config)
    (ops : List CacheOp) :
    (∀ kv ∈ (runOps p cfg ops initState).index,
      (runOps p cfg ops initState).files.countP (fun f => f.1 = kv.1) = 1)
    ∧ (∀ f ∈ (runOps p cfg ops initState).files,
      (runOps p cfg ops initState).index.countP (fun kv => kv.1 = f.1) = 1) := by
  have h := inv_runOps p cfg ops initState inv_initState
  constructor
  · intro kv hkv
    exact countP_keys_eq_one _ _ h.2.2
      ((h.1 kv.1).1 (mapGet_isSome_of_mem hkv))
  · intro f hf
    exact countP_keys_eq_one _ _ h.2.1
      ((h.1 f.1).2 (mapGet_isSome_of_mem hf))

/-- C8 counterexample: the self-heal path of `get` mutates the index without
persisting.  On a state whose snapshot matches its index but whose only
entry has no blob file, `get` removes the index entry and returns while the
persisted snapshot still contains the removed entry. -/
theorem claim_persist_before_return_counterexample :
    persistedMatches stOrphan
    ∧ (get idPrims cfgOff 0 (JSData.str "k") stOrphan).2.index = []
    ∧ (get idPrims cfgOff 0 (JSData.str "k") stOrphan).2.persisted
        = stOrphan.persisted
    ∧ ¬ persistedMatches (get idPrims cfgOff 0 (JSData.str "k") stOrphan).2 := by
  refine ⟨rfl, rfl, rfl, fun h => ?_⟩
  have h2 : ([("k", metaEnc)] : List (String × CacheMetadata)) = [] := h
  exact List.noConfusion h2

/-- C8 amended: on states satisfying the index/storage consistency
invariant, every public operation that mutates the in-memory index persists
the index snapshot before returning, so the persisted snapshot's index
reflects the in-memory index on return.  (The exception forcing the
invariant hypothesis is the consistency self-heal inside `get`, which is
reachable only from inconsistent states and removes the index entry without
persisting.) -/
theorem claim_persist_before_return_amended (p : Prims) (cfg : Config)
    (op : CacheOp) (st : CacheState) (hInv : ConsistencyInv st)
    (hp : persistedMatches st) : persistedMatches (runOp p cfg op st) := by
  cases op with
  | setOp now key data ttl => exact pmatch_set p cfg now key data ttl true st hp
  | getOp now key => exact pmatch_get p cfg now key st hInv hp
  | hasOp now key => exact pmatch_has p cfg now key st hp
  | delOp key => exact pmatch_delete p cfg key st hp
  | cleanupExpiredOp now => exact pmatch_cleanupExpired now st hp
  | cleanupOversizedOp => exact pmatch_cleanupOversized cfg st hp
  | cleanupOp now => exact pmatch_cleanup cfg now st hp
  | clearOp now => exact pmatch_clear now st
  | getStatsOp => exact hp

/-- Witness for the amended C8 at the empty cache and a concrete `set`. -/
theorem claim_persist_before_return_amended_witness :
    persistedMatches (runOp idPrims cfgOff
      (CacheOp.setOp 0 (JSData.str "k") (JSData.str "v") none) initState) :=
  claim_persist_before_return_amended idPrims cfgOff
    (CacheOp.setOp 0 (JSData.str "k") (JSData.str "v") none) initState
    inv_initState rfl

/-- C5: Size-bound eviction.  The helper lemmas below show the sweep removes
a prefix of the entries sorted by ascending `timestamp` and drives the
recorded total under the budget. -/
theorem sumSizes_cons (k : String) (m : CacheMetadata)
    (l : List (String × CacheMetadata)) :
    sumSizes ((k, m) :: l) = m.size + sumSizes l := by
  simp [sumSizes]

theorem sumSizes_perm {l l' : List (String × CacheMetadata)}
    (h : l.Perm l') : sumSizes l = sumSizes l' :=
  (h.map _).sum_eq

theorem cleanupOversizedGo_spec (maxSize t0 : Nat)
    (entries : List (String × CacheMetadata)) :
    ∀ (st : CacheState) (cnt sz : Nat),
    st.index.Perm entries → (entries.map Prod.fst).Nodup →
    ∃ pre suf, entries = pre ++ suf
      ∧ (cleanupOversizedGo maxSize t0 entries st cnt sz).2.2.index.Perm suf
      ∧ (sz + sumSizes entries ≤ t0 → sumSizes suf ≤ maxSize) := by
  induction entries with
  | nil =>
    intro st cnt sz hperm _
    exact ⟨[], [], rfl, hperm, fun _ => Nat.zero_le _⟩
  | cons hd rest ih =>
    intro st cnt sz hperm hnd
    obtain ⟨k, m⟩ := hd
    unfold cleanupOversizedGo
    by_cases hbr : t0 - sz ≤ maxSize
    · simp only [if_pos hbr]
      refine ⟨[], (k, m) :: rest, rfl, hperm, fun h => ?_⟩
      have h1 : sumSizes ((k, m) :: rest) ≤ t0 - sz :=
        Nat.le_sub_of_add_le (by omega)
      omega
    · simp only [if_neg hbr]
      have hndst : (st.index.map Prod.fst).Nodup :=
        ((hperm.map Prod.fst).nodup_iff).2 hnd
      have hdel : (mapDelete st.index k).Perm rest := mapDelete_perm hperm hndst
      have hndrest : (rest.map Prod.fst).Nodup := by
        simp only [List.map_cons, List.nodup_cons] at hnd
        exact hnd.2
      obtain ⟨pre, suf, hsplit, hres, hcond⟩ := ih
        { st with files := mapDelete st.files k, index := mapDelete st.index k }
        (cnt + 1) (if (mapGet st.files k).isSome then sz + m.size else sz)
        hdel hndrest
      refine ⟨(k, m) :: pre, suf, by rw [hsplit]; rfl, hres, fun h => ?_⟩
      apply hcond
      rw [sumSizes_cons] at h
      by_cases hf : (mapGet st.files k).isSome <;> simp [hf] <;> omega

/-- C5: Size-bound eviction correctness.  Whenever the recorded total size
(accurately reflecting the index, as maintained by every operation) exceeds
`maxCacheSize`, after `cleanupOversized` the recorded total is at most
`maxCacheSize`, and the evicted entries form an oldest-first set: every
evicted entry's `createdAt` is at most that of every surviving entry. -/
theorem claim_eviction_oldest_first (cfg : Config) (st : CacheState)
    (hacc : st.stats.totalSize = sumSizes st.index)
    (hnd : (st.index.map Prod.fst).Nodup) :
    (cleanupOversized cfg st).2.stats.totalSize ≤ cfg.maxCacheSize
    ∧ ∀ kv ∈ st.index,
        mapGet (cleanupOversized cfg st).2.index kv.1 = none →
        ∀ kv' ∈ (cleanupOversized cfg st).2.index,
          kv.2.timestamp ≤ kv'.2.timestamp := by
  by_cases h0 : st.stats.totalSize ≤ cfg.maxCacheSize
  · have hid : (cleanupOversized cfg st).2 = st := by
      unfold cleanupOversized
      rw [if_pos h0]
    constructor
    · rw [hid]
      exact h0
    · intro kv hkv hnone kv' hkv'
      rw [hid] at hnone
      have hsome := mapGet_isSome_of_mem
        (show (kv.1, kv.2) ∈ st.index from hkv)
      rw [hnone] at hsome
      cases hsome
  · have hperm : st.index.Perm (List.insertionSort tsLE st.index) :=
      (List.perm_insertionSort tsLE st.index).symm
    have hndsorted : ((List.insertionSort tsLE st.index).map Prod.fst).Nodup :=
      ((hperm.map Prod.fst).nodup_iff).1 hnd
    have hsorted : List.Sorted tsLE (List.insertionSort tsLE st.index) :=
      List.sorted_insertionSort tsLE st.index
    obtain ⟨pre, suf, hsplit, hres, hcond⟩ :=
      cleanupOversizedGo_spec cfg.maxCacheSize st.stats.totalSize
        (List.insertionSort tsLE st.index) st 0 0 hperm hndsorted
    have hsum : sumSizes suf ≤ cfg.maxCacheSize := by
      apply hcond
      have he : sumSizes (List.insertionSort tsLE st.index)
          = sumSizes st.index := (sumSizes_perm hperm).symm
      omega
    by_cases hc : (cleanupOversizedGo cfg.maxCacheSize st.stats.totalSize
        (List.insertionSort tsLE st.index) st 0 0).1 > 0
    · have hstate : (cleanupOversized cfg st).2
          = saveCacheIndex
              { (cleanupOversizedGo cfg.maxCacheSize st.stats.totalSize
                  (List.insertionSort tsLE st.index) st 0 0).2.2 with
                stats := updateCacheStats
                  (cleanupOversizedGo cfg.maxCacheSize st.stats.totalSize
                    (List.insertionSort tsLE st.index) st 0 0).2.2.index
                  (cleanupOversizedGo cfg.maxCacheSize st.stats.totalSize
                    (List.insertionSort tsLE st.index) st 0 0).2.2.stats } := by
        simp only [cleanupOversized, if_neg h0, if_pos hc]
      constructor
      · rw [hstate]
        show sumSizes (cleanupOversizedGo cfg.maxCacheSize st.stats.totalSize
          (List.insertionSort tsLE st.index) st 0 0).2.2.index
          ≤ cfg.maxCacheSize
        rw [sumSizes_perm hres]
        exact hsum
      · intro kv hkv hnone kv' hkv'
        rw [hstate] at hnone hkv'
        have hkv'go : kv' ∈ (cleanupOversizedGo cfg.maxCacheSize
            st.stats.totalSize (List.insertionSort tsLE st.index)
            st 0 0).2.2.index := hkv'
        have hnonego : mapGet (cleanupOversizedGo cfg.maxCacheSize
            st.stats.totalSize (List.insertionSort tsLE st.index)
            st 0 0).2.2.index kv.1 = none := hnone
        have hkv'suf : kv' ∈ suf := hres.mem_iff.1 hkv'go
        have hkvsorted : kv ∈ List.insertionSort tsLE st.index :=
          hperm.mem_iff.1 hkv
        have hkvnsuf : kv ∉ suf := by
          intro hin
          have hgo := hres.mem_iff.2 hin
          have hsome := mapGet_isSome_of_mem
            (show (kv.1, kv.2) ∈ _ from hgo)
          rw [hnonego] at hsome
          cases hsome
        have hkvpre : kv ∈ pre := by
          rw [hsplit] at hkvsorted
          rcases List.mem_append.1 hkvsorted with h | h
          · exact h
          · exact absurd h hkvnsuf
        have hpw : List.Pairwise tsLE (pre ++ suf) := by
          rw [← hsplit]
          exact hsorted
        exact (List.pairwise_append.1 hpw).2.2 kv hkvpre kv' hkv'suf
    · exfalso
      cases hs : List.insertionSort tsLE st.index with
      | nil =>
        have hnil : st.index = [] := by
          have := hperm
          rw [hs] at this
          exact this.eq_nil
        have hz : st.stats.totalSize = 0 := by
          rw [hacc, hnil]
          rfl
        omega
      | cons e restS =>
        have h1 : ¬ (st.stats.totalSize - 0 ≤ cfg.maxCacheSize) := by omega
        have h2 : (1 : Nat) ≤ (cleanupOversizedGo cfg.maxCacheSize
            st.stats.totalSize (e :: restS) st 0 0).1 := by
          obtain ⟨k, m⟩ := e
          unfold cleanupOversizedGo
          rw [if_neg h1]
          exact cleanupOversizedGo_cnt_le _ _ _ _ _ _
        rw [hs] at hc
        omega

/-- Witness for C5 at a concrete over-budget state: five 30-byte entries
(total 150) against a 100-byte budget. -/
theorem claim_eviction_oldest_first_witness :
    (cleanupOversized cfgOn stFive).2.stats.totalSize ≤ cfgOn.maxCacheSize
    ∧ ∀ kv ∈ stFive.index,
        mapGet (cleanupOversized cfgOn stFive).2.index kv.1 = none →
        ∀ kv' ∈ (cleanupOversized cfgOn stFive).2.index,
          kv.2.timestamp ≤ kv'.2.timestamp :=
  claim_eviction_oldest_first cfgOn stFive rfl (by decide)

/-- C1: Codec round-trip.  For any configuration of the
`(compressionEnabled, encryptionEnabled)` flags and any payload, decoding
the encoded payload with the actual-applied flags returned by `encode`
yields the payload back, assuming the gzip and aes192 library primitives
are inverses where they succeed. -/
theorem claim_codec_round_trip (p : Prims) (cfg : Config)
    (hgz : ∀ x y, p.gzip x = some y → p.gunzip y = some x)
    (haes : ∀ x y, p.aesEnc x = some y → p.aesDec y = some x) (x : String) :
    decode p cfg (encode p cfg x).1 (encode p cfg x).2.1 (encode p cfg x).2.2
      = x := by
  show decompressData p cfg
    (decryptData p cfg (encryptData p cfg (compressData p cfg x))
      (encryptData p cfg (compressData p cfg x) != compressData p cfg x))
    (compressData p cfg x != x) = x
  rw [decryptData_encryptData p cfg haes]
  exact decompressData_compressData p cfg hgz x

/-- Witness for C1 at a concrete payload and primitive bundle. -/
theorem claim_codec_round_trip_witness :
    decode idPrims cfgOn (encode idPrims cfgOn "hello").1
      (encode idPrims cfgOn "hello").2.1 (encode idPrims cfgOn "hello").2.2
      = "hello" :=
  claim_codec_round_trip idPrims cfgOn
    (fun x y h => by injection h with h1; subst h1; rfl)
    (fun x y h => by injection h with h1; subst h1; rfl) "hello"

/-- C9: Atomicity of `set` on storage failure.  When the blob write fails,
`set` returns `false` and the state — index, stats, files and persisted
snapshot — is entirely unchanged. -/
theorem claim_set_write_failure_atomic (p : Prims) (cfg : Config) (now : Nat)
    (key data : JSData) (ttlOpt : Option Nat) (st : CacheState) :
    set p cfg now key data ttlOpt false st = (false, st) := rfl

/-- C10: Key aliasing at the public interface.  A string key `s` and a
non-string key whose JSON serialization equals `s` produce the same
`contentKey`; `get`, `has` and `delete` behave identically under either
key, and a `set` under one key overwrites the entry written under the
other instead of creating a second entry. -/
theorem claim_key_aliasing (p : Prims) (cfg : Config) (s : String) :
    generateCacheKey p (JSData.str s) = generateCacheKey p (JSData.obj s)
    ∧ (∀ now st, get p cfg now (JSData.str s) st
        = get p cfg now (JSData.obj s) st)
    ∧ (∀ now st, has p cfg now (JSData.str s) st
        = has p cfg now (JSData.obj s) st)
    ∧ (∀ st, delete p cfg (JSData.str s) st = delete p cfg (JSData.obj s) st)
    ∧ (∀ now now' d d' ttl ttl' st,
        (set p cfg now (JSData.obj s) d ttl true
            (set p cfg now' (JSData.str s) d' ttl' true st).2).2.index.length
          = (set p cfg now' (JSData.str s) d' ttl' true st).2.index.length) := by
  have hk : generateCacheKey p (JSData.str s)
      = generateCacheKey p (JSData.obj s) := rfl
  refine ⟨hk, fun now st => get_congr_key p cfg now hk st,
    fun now st => has_congr_key p cfg now hk st,
    fun st => delete_congr_key p cfg hk st, fun now now' d d' ttl ttl' st => ?_⟩
  rw [set_ok_index, set_ok_index, ← hk]
  refine mapSet_length_of_isSome _ _ _ ?_
  rw [mapGet_mapSet]
  simp

/-- C4: TTL boundary.  After `set(k, v, ttl = 1000)` at time `t`, a `get(k)`
at `t + 999` returns `v`, and a subsequent `get(k)` at `t + 1001` returns
absent and removes both the index entry and the blob, assuming the codec
library primitives are inverses where they succeed and `JSON.parse` inverts
the serialization of a structured value. -/
theorem claim_ttl_boundary (p : Prims) (cfg : Config)
    (hgz : ∀ x y, p.gzip x = some y → p.gunzip y = some x)
    (haes : ∀ x y, p.aesEnc x = some y → p.aesDec y = some x)
    (key v : JSData) (t : Nat) (st : CacheState)
    (hjp : ∀ j, v = JSData.obj j → p.jparse j = some j) :
    (get p cfg (t + 999) key
        (set p cfg t key v (some 1000) true st).2).1 = some v
    ∧ (get p cfg (t + 1001) key
        (get p cfg (t + 999) key
          (set p cfg t key v (some 1000) true st).2).2).1 = none
    ∧ mapGet (get p cfg (t + 1001) key
        (get p cfg (t + 999) key
          (set p cfg t key v (some 1000) true st).2).2).2.index
        (generateCacheKey p key) = none
    ∧ mapGet (get p cfg (t + 1001) key
        (get p cfg (t + 999) key
          (set p cfg t key v (some 1000) true st).2).2).2.files
        (generateCacheKey p key) = none := by
  have f1 : mapGet (set p cfg t key v (some 1000) true st).2.index
      (generateCacheKey p key) = some (setMetadata p cfg t key v (some 1000)) := by
    rw [set_ok_index, mapGet_mapSet]
    simp
  have f2 : mapGet (set p cfg t key v (some 1000) true st).2.files
      (generateCacheKey p key)
      = some (setMetadata p cfg t key v (some 1000), setEncoded p cfg v) := by
    rw [set_ok_files, mapGet_mapSet]
    simp
  have hexp : (setMetadata p cfg t key v (some 1000)).expiresAt = t + 1000 := rfl
  have hnlt : ¬ (t + 999 > (setMetadata p cfg t key v (some 1000)).expiresAt) := by
    rw [hexp]; omega
  have hlt : t + 1001 > (setMetadata p cfg t key v (some 1000)).expiresAt := by
    rw [hexp]; omega
  have f4 : decompressData p cfg
      (decryptData p cfg (setEncoded p cfg v)
        (setMetadata p cfg t key v (some 1000)).isEncrypted)
      (setMetadata p cfg t key v (some 1000)).isCompressed
      = processedData v := by
    show decompressData p cfg
      (decryptData p cfg (encryptData p cfg (compressData p cfg (processedData v)))
        (encryptData p cfg (compressData p cfg (processedData v))
          != compressData p cfg (processedData v)))
      (compressData p cfg (processedData v) != processedData v)
      = processedData v
    rw [decryptData_encryptData p cfg haes]
    exact decompressData_compressData p cfg hgz _
  have hEq1 : get p cfg (t + 999) key (set p cfg t key v (some 1000) true st).2
      = (some v, bumpHit (set p cfg t key v (some 1000) true st).2) := by
    cases v with
    | str s =>
      have hdt : (setMetadata p cfg t key (JSData.str s) (some 1000)).dataType
          = "string" := rfl
      simp only [get, f1, if_neg hnlt, f2, f4, hdt, if_pos rfl]
      rfl
    | obj j =>
      have hdt : (setMetadata p cfg t key (JSData.obj j) (some 1000)).dataType
          = "object" := rfl
      have hne : ¬ (("object" : String) = "string") := by decide
      simp only [get, f1, if_neg hnlt, f2, f4, hdt, if_neg hne, processedData,
        hjp j rfl]
  have f1' : mapGet
      (bumpHit (set p cfg t key v (some 1000) true st).2).index
      (generateCacheKey p key)
      = some (setMetadata p cfg t key v (some 1000)) := f1
  have hEq2 : get p cfg (t + 1001) key
      (bumpHit (set p cfg t key v (some 1000) true st).2)
      = (none, bumpMiss (delete p cfg key
          (bumpHit (set p cfg t key v (some 1000) true st).2)).2) := by
    simp only [get, f1', if_pos hlt]
  have hdidx : (delete p cfg key
      (bumpHit (set p cfg t key v (some 1000) true st).2)).2.index
      = mapDelete (bumpHit (set p cfg t key v (some 1000) true st).2).index
        (generateCacheKey p key) :=
    delete_index_of_found p cfg key _ f1'
  have hdfls : (delete p cfg key
      (bumpHit (set p cfg t key v (some 1000) true st).2)).2.files
      = mapDelete (bumpHit (set p cfg t key v (some 1000) true st).2).files
        (generateCacheKey p key) :=
    delete_files_of_found p cfg key _ f1'
  refine ⟨by rw [hEq1], ?_, ?_, ?_⟩
  · rw [hEq1]
    show (get p cfg (t + 1001) key
      (bumpHit (set p cfg t key v (some 1000) true st).2)).1 = none
    rw [hEq2]
  · rw [hEq1]
    show mapGet (get p cfg (t + 1001) key
        (bumpHit (set p cfg t key v (some 1000) true st).2)).2.index
      (generateCacheKey p key) = none
    rw [hEq2]
    show mapGet (delete p cfg key
        (bumpHit (set p cfg t key v (some 1000) true st).2)).2.index
      (generateCacheKey p key) = none
    rw [hdidx, mapGet_mapDelete]
    simp
  · rw [hEq1]
    show mapGet (get p cfg (t + 1001) key
        (bumpHit (set p cfg t key v (some 1000) true st).2)).2.files
      (generateCacheKey p key) = none
    rw [hEq2]
    show mapGet (delete p cfg key
        (bumpHit (set p cfg t key v (some 1000) true st).2)).2.files
      (generateCacheKey p key) = none
    rw [hdfls, mapGet_mapDelete]
    simp

/-- Witness for C4: the first conjunct at a concrete key, value, time and
the empty cache. -/
theorem claim_ttl_boundary_witness :
    (get idPrims cfgOff (0 + 999) (JSData.str "k")
        (set idPrims cfgOff 0 (JSData.str "k") (JSData.str "hello")
          (some 1000) true initState).2).1 = some (JSData.str "hello") :=
  (claim_ttl_boundary idPrims cfgOff
    (fun x y h => by injection h with h1; subst h1; rfl)
    (fun x y h => by injection h with h1; subst h1; rfl)
    (JSData.str "k") (JSData.str "hello") 0 initState
    (fun j h => JSData.noConfusion h)).1

/-- C3 counterexample: the read path is not authoritative about recorded
flags and a failed stage is not a `CodecError`.  With both stages enabled,
a stage recorded as applied whose primitive fails is silently skipped —
`decryptData`/`decompressData` return the untransformed input — and a full
`get` over such an entry returns the still-transformed bytes as a normal
hit; moreover a stage recorded as applied is not reversed at all when the
current configuration has it disabled. -/
theorem claim_decode_fallback_counterexample :
    decryptData failPrims cfgOn "ENC" true = "ENC"
    ∧ decompressData failPrims cfgOn "GZ" true = "GZ"
    ∧ decompressData idPrims cfgOff "GZ" true = "GZ"
    ∧ (get failPrims cfgOn 0 (JSData.str "k") stEnc).1
        = some (JSData.str "ENC")
    ∧ (get failPrims cfgOn 0 (JSData.str "k") stEnc).2.stats.hits = 1 :=
  ⟨rfl, rfl, rfl, rfl, rfl⟩

/-- C3 amended: when a codec stage is recorded as applied but its library
primitive fails at read time, the code logs a warning and returns that
stage's input bytes unchanged — a silent fallback rather than a hard
`CodecError`; reversal is additionally gated on the stage being enabled in
the current configuration. -/
theorem claim_decode_fallback_amended (p : Prims) (cfg : Config)
    (data : String) (henc : cfg.encryptionEnabled = true)
    (hcomp : cfg.compressionEnabled = true) (hdec : p.aesDec data = none)
    (hgun : p.gunzip data = none) :
    decryptData p cfg data true = data
    ∧ decompressData p cfg data true = data := by
  constructor
  · unfold decryptData
    simp [henc, hdec]
  · unfold decompressData
    simp [hcomp, hgun]

/-- Witness for the amended C3 at a concrete failing primitive bundle. -/
theorem claim_decode_fallback_amended_witness :
    decryptData failPrims cfgOn "x" true = "x"
    ∧ decompressData failPrims cfgOn "x" true = "x" :=
  claim_decode_fallback_amended failPrims cfgOn "x" rfl rfl rfl rfl

end OfflineCache
